import Mathlib

/-!
# Verification of the url-shorterner core

Shallow embedding of the shortener service (`svc/shortener/app`, package
`app`), the sliding-window rate limiter (`internal/rate`), the Redis-backed
cache helpers (`internal/cache`) and the rate-limit middleware
(`internal/middleware/rate_limit.go`) of the `long-lehoang/url-shorterner`
repository, together with proofs of the specification claims.

Modelling conventions:
* machine integers and `time.Time` values are `Int` (seconds since epoch;
  the code compares times at RFC3339 second granularity);
* the external collaborators (Postgres store, Redis, the bloom-filter
  library `bits-and-blooms/bloom`, Go's `net/url` and `encoding/base64`)
  are modelled from their documented contracts, since they are not part of
  the repository: the store and the cache are finite association lists, the
  bloom filter is the set of added codes together with an arbitrary
  false-positive predicate `extra`, `net/url` is a parser returning scheme
  and host for the URL shapes the service inspects, and base64 is encoded
  exactly;
* randomness (`crypto/rand`) is an oracle parameter: `cands i` is the i-th
  candidate code produced by `generateShortCode`, `randomBytes i` the i-th
  random byte;
* fallible Go results `(T, error)` become `Except`; each service operation
  additionally returns the updated state and the list of I/O effects it
  performed, so that "performs no store writes" is a statement about the
  effect trace.
-/

namespace UrlShortener

/-! ## Model of Go `net/url.Parse` (scheme and host extraction)

Modelled from the `net/url` contract as exercised by `validateURL`:
`Parse` rejects control characters, splits the fragment at `#` and the
query at `?`, extracts a `scheme:` prefix (lower-cased; a colon in
position zero is the "missing protocol scheme" error), reads the
authority after `//` up to the next `/`, strips user-info up to the last
`@`, and rejects a space inside the host.  Percent-escape validation and
IPv6 bracket hosts are not modelled. -/

structure GoURL where
  scheme : String
  host : String
deriving DecidableEq, Repr

def isCtl (c : Char) : Bool := c.toNat < 32 || c.toNat == 127

def isSchemeExtra (c : Char) : Bool := c.isDigit || c == '+' || c == '-' || c == '.'

def getSchemeAux (orig : String) (acc : List Char) (first : Bool) :
    List Char → Option (String × String)
  | [] => some ("", orig)
  | c :: cs =>
    if c.isAlpha then getSchemeAux orig (acc ++ [c]) false cs
    else if isSchemeExtra c then
      if first then some ("", orig) else getSchemeAux orig (acc ++ [c]) false cs
    else if c = ':' then
      if first then none else some (String.mk acc, String.mk cs)
    else some ("", orig)

def getScheme (s : String) : Option (String × String) :=
  getSchemeAux s [] true s.data

/-- ASCII lower-casing (`strings.ToLower` over a scheme). -/
def lowerString (s : String) : String := String.mk (s.data.map Char.toLower)

def parseURL (raw : String) : Option GoURL :=
  if raw.data.any isCtl then none
  else
    let beforeFrag := raw.data.takeWhile (fun c => c ≠ '#')
    match getScheme (String.mk beforeFrag) with
    | none => none
    | some (sch, rest) =>
      let scheme := lowerString sch
      let restq := rest.data.takeWhile (fun c => c ≠ '?')
      if restq.take 2 = ['/', '/'] then
        let authority := (restq.drop 2).takeWhile (fun c => c ≠ '/')
        let host := (authority.reverse.takeWhile (fun c => c ≠ '@')).reverse
        if host.any (fun c => c = ' ') then none
        else some ⟨scheme, String.mk host⟩
      else some ⟨scheme, ""⟩

/-! ## Shortener service data model (`svc/shortener/app`, `svc/shortener/entity`) -/

/-- The domain error values of `svc/shortener/app/errors.go`
(`ErrInvalidURLFormat`, `ErrInvalidURLScheme`, `ErrAliasExists`,
`ErrURLNotFound`, `ErrURLExpired`, `ErrShortCodeGeneration`); `internalErr`
stands for the `fmt.Errorf`-wrapped transport failures, which match none of
the sentinels. -/
inductive SErr where
  | invalidURLFormat
  | invalidURLScheme
  | aliasExists
  | urlNotFound
  | urlExpired
  | shortCodeGeneration
  | internalErr (msg : String)
deriving DecidableEq, Repr

/-- `entity.URL` (`svc/shortener/entity/url.go`). -/
structure URLRecord where
  id : String
  shortCode : String
  originalURL : String
  expiresAt : Option Int
  createdAt : Int
  updatedAt : Int
deriving DecidableEq, Repr

/-- `app.ShortenResponse`. -/
structure ShortenResponse where
  shortCode : String
  shortURL : String
  expiresAt : Option Int
deriving DecidableEq, Repr

/-- One I/O effect of the service against its collaborators: the durable
store (`dao`/`repo`), the Redis URL cache (`urlCache`) and the in-process
bloom filter. -/
inductive Effect where
  | storeRead (code : String)
  | storeWrite (code : String)
  | cacheRead (key : String)
  | cacheWrite (key : String) (value : String) (ttl : Int)
  | bloomAdd (code : String)
  | bloomCheck (code : String)
deriving DecidableEq, Repr

/-- The state the service observes: durable store rows, cache entries
(key, value, absolute expiry instant) and the list of codes added to the
bloom filter. -/
structure SState where
  store : List URLRecord
  cache : List (String × String × Int)
  bloom : List String
deriving Repr

/-- `dao.CheckShortCodeExists`: the store's uniqueness lookup. -/
def storeExists (st : List URLRecord) (code : String) : Bool :=
  st.any (fun r => r.shortCode == code)

/-- `dao.GetURLByShortCode`: `none` is `storage.ErrNotFound`. -/
def storeGet (st : List URLRecord) (code : String) : Option URLRecord :=
  st.find? (fun r => r.shortCode == code)

/-- Redis `GET` at instant `now`: an entry is visible while `now` is before
its expiry instant. -/
def cacheGet (c : List (String × String × Int)) (key : String) (now : Int) :
    Option String :=
  match c.find? (fun e => e.1 == key) with
  | some (_, v, exp) => if now < exp then some v else none
  | none => none

/-- Redis `SET` with TTL: the new binding shadows any older one. -/
def cacheSet (c : List (String × String × Int)) (key value : String) (exp : Int) :
    List (String × String × Int) :=
  (key, value, exp) :: c

/-- `bloom.BloomFilter.Test`, modelled from the library contract: it is
`true` for every added element (no false negatives) and may additionally be
`true` on the arbitrary false-positive set `extra`. -/
def bloomCheck (added : List String) (extra : String → Bool) (code : String) : Bool :=
  added.contains code || extra code

/-- `cache.URLCache.GetURL`/`SetURL` key: `"url:" + shortCode`. -/
def urlKey (code : String) : String := "url:" ++ code

/-- The 365-day default cache TTL (`365*24*time.Hour`), in seconds. -/
def yearTTL : Int := 365 * 24 * 60 * 60

/-- `app.validateURL` (part_019 lines 516–525): parse failure is
`ErrInvalidURLFormat`, a scheme other than `http`/`https` is
`ErrInvalidURLScheme`; the host is not inspected. -/
def validateURL (u : String) : Except SErr Unit :=
  match parseURL u with
  | none => .error .invalidURLFormat
  | some p =>
    if p.scheme ≠ "http" ∧ p.scheme ≠ "https" then .error .invalidURLScheme
    else .ok ()

/-- The attempt loop of `app.generateUniqueShortCode`: attempt `i` draws
candidate `cands i` and checks non-existence in the durable store; the
effect list records one store read per attempt. -/
def genAttempts (st : List URLRecord) (cands : Nat → String) :
    Nat → Nat → Except SErr String × List Effect
  | _, 0 => (.error .shortCodeGeneration, [])
  | i, n + 1 =>
    let code := cands i
    if storeExists st code then
      let r := genAttempts st cands (i + 1) n
      (r.1, .storeRead code :: r.2)
    else (.ok code, [.storeRead code])

/-- `app.generateUniqueShortCode` (part_019 lines 501–514): `maxAttempts = 10`. -/
def generateUniqueShortCode (st : List URLRecord) (cands : Nat → String) :
    Except SErr String × List Effect :=
  genAttempts st cands 0 10

/-- `app.service.Shorten` (part_019 lines 382–444).  `dom` is `s.domain`,
`now` the instant `time.Now().UTC()`, `uid` the value of `uuid.Generate()`,
`cands` the random-code oracle. -/
def Shorten (dom : String) (s : SState) (originalURL : String)
    (expiresIn : Option Int) (alias? : Option String) (now : Int)
    (uid : String) (cands : Nat → String) :
    Except SErr ShortenResponse × SState × List Effect :=
  match validateURL originalURL with
  | .error e => (.error e, s, [])
  | .ok _ =>
    let picked : Except SErr String × List Effect :=
      match alias? with
      | some a =>
        if a ≠ "" then
          if storeExists s.store a then (.error .aliasExists, [.storeRead a])
          else (.ok a, [.storeRead a])
        else generateUniqueShortCode s.store cands
      | none => generateUniqueShortCode s.store cands
    match picked with
    | (.error e, tr) => (.error e, s, tr)
    | (.ok code, tr) =>
      let expiresAt : Option Int := expiresIn.map (fun d => now + d)
      let row : URLRecord :=
        { id := uid, shortCode := code, originalURL := originalURL,
          expiresAt := expiresAt, createdAt := now, updatedAt := now }
      let store' := s.store ++ [row]
      let bloom' := s.bloom ++ [code]
      let resp : ShortenResponse :=
        { shortCode := code, shortURL := dom ++ "/" ++ code, expiresAt := expiresAt }
      match expiresAt with
      | some e =>
        let ttl := e - now
        if 0 < ttl then
          (.ok resp,
           ⟨store', cacheSet s.cache (urlKey code) originalURL (now + ttl), bloom'⟩,
           tr ++ [.storeWrite code, .bloomAdd code,
                  .cacheWrite (urlKey code) originalURL ttl])
        else
          (.ok resp, ⟨store', s.cache, bloom'⟩,
           tr ++ [.storeWrite code, .bloomAdd code])
      | none =>
        (.ok resp,
         ⟨store', cacheSet s.cache (urlKey code) originalURL (now + yearTTL), bloom'⟩,
         tr ++ [.storeWrite code, .bloomAdd code,
                .cacheWrite (urlKey code) originalURL yearTTL])

/-- `app.service.GetOriginalURL` (part_019 lines 466–499).  `extra` is the
bloom filter's false-positive set. -/
def GetOriginalURL (s : SState) (extra : String → Bool) (code : String) (now : Int) :
    Except SErr String × SState × List Effect :=
  if bloomCheck s.bloom extra code then
    match cacheGet s.cache (urlKey code) now with
    | some v => (.ok v, s, [.bloomCheck code, .cacheRead (urlKey code)])
    | none =>
      match storeGet s.store code with
      | none =>
        (.error .urlNotFound, s,
         [.bloomCheck code, .cacheRead (urlKey code), .storeRead code])
      | some row =>
        match row.expiresAt with
        | some e =>
          if e < now then
            (.error .urlExpired, s,
             [.bloomCheck code, .cacheRead (urlKey code), .storeRead code])
          else
            let ttl := e - now
            if 0 < ttl then
              (.ok row.originalURL,
               ⟨s.store, cacheSet s.cache (urlKey code) row.originalURL (now + ttl), s.bloom⟩,
               [.bloomCheck code, .cacheRead (urlKey code), .storeRead code,
                .cacheWrite (urlKey code) row.originalURL ttl])
            else
              (.ok row.originalURL, s,
               [.bloomCheck code, .cacheRead (urlKey code), .storeRead code])
        | none =>
          (.ok row.originalURL,
           ⟨s.store, cacheSet s.cache (urlKey code) row.originalURL (now + yearTTL), s.bloom⟩,
           [.bloomCheck code, .cacheRead (urlKey code), .storeRead code,
            .cacheWrite (urlKey code) row.originalURL yearTTL])
  else (.error .urlNotFound, s, [.bloomCheck code])

/-- The error-to-HTTP-status mapping of the `transport.Shorten` handler
(part_021 lines 42–48): alias conflicts map to 409, validation failures to
400, everything else to 500. -/
def shortenStatus : SErr → Nat
  | .aliasExists => 409
  | .invalidURLFormat => 400
  | .invalidURLScheme => 400
  | _ => 500

/-! ## Operation sequences (used to state "thereafter" properties) -/

/-- One request against the service: a `Shorten` call or a
`GetOriginalURL` call, with its per-call inputs and oracles. -/
inductive Op where
  | shortenOp (url : String) (expiresIn : Option Int) (alias? : Option String)
      (now : Int) (uid : String) (cands : Nat → String)
  | getOp (code : String) (now : Int)

def runOp (dom : String) (extra : String → Bool) (s : SState) : Op → SState
  | .shortenOp url e a now uid cands => (Shorten dom s url e a now uid cands).2.1
  | .getOp code now => (GetOriginalURL s extra code now).2.1

def runOps (dom : String) (extra : String → Bool) : SState → List Op → SState
  | s, [] => s
  | s, op :: rest => runOps dom extra (runOp dom extra s op) rest

/-! ## Model of `app.generateShortCode` (part_019 lines 527–531)

`generateShortCode(length)` fills `length*3/4+1` random bytes, base64-URL
encodes them (`encoding/base64.URLEncoding`, with `=` padding) and keeps
the first `length` characters. -/

/-- The base64 URL alphabet of `encoding/base64.URLEncoding`, in value
order. -/
def b64Alphabet : List Char :=
  ['A','B','C','D','E','F','G','H','I','J','K','L','M','N','O','P','Q','R',
   'S','T','U','V','W','X','Y','Z','a','b','c','d','e','f','g','h','i','j',
   'k','l','m','n','o','p','q','r','s','t','u','v','w','x','y','z','0','1',
   '2','3','4','5','6','7','8','9','-','_']

def sextetChar (n : Nat) : Char := b64Alphabet.getD (n % 64) 'A'

/-- `base64.URLEncoding.EncodeToString` over byte lists. -/
def b64EncodeList : List Nat → List Char
  | [] => []
  | [b1] => [sextetChar (b1 / 4), sextetChar (b1 % 4 * 16), '=', '=']
  | [b1, b2] =>
    [sextetChar (b1 / 4), sextetChar (b1 % 4 * 16 + b2 / 16),
     sextetChar (b2 % 16 * 4), '=']
  | b1 :: b2 :: b3 :: rest =>
    sextetChar (b1 / 4) :: sextetChar (b1 % 4 * 16 + b2 / 16) ::
    sextetChar (b2 % 16 * 4 + b3 / 64) :: sextetChar (b3 % 64) ::
    b64EncodeList rest

/-- `app.generateShortCode`: `randomBytes` is the `crypto/rand.Read`
oracle (reduced mod 256 to bytes). -/
def generateShortCode (length : Nat) (randomBytes : Nat → Nat) : String :=
  let bytes := (List.range (length * 3 / 4 + 1)).map (fun i => randomBytes i % 256)
  String.mk ((b64EncodeList bytes).take length)

/-! ## Rate limiter (`internal/rate`, `internal/cache` window helpers)

A stored window value is a list of strings; each string either parses as an
RFC3339 timestamp or does not.  `WindowEntry.ts t` stands for the RFC3339
rendering of the instant `t` (`time.Time.Format(time.RFC3339)` followed by
`time.Parse(time.RFC3339, ·)` round-trips at second granularity), and
`WindowEntry.malformed s` stands for a string rejected by `time.Parse`.
The Redis backend is an association list of (key, window, absolute expiry
instant); transport failures of the three Redis calls made by `Allow` are
injected through the Boolean outcomes `r1` (the `GetWindow` in `Allow`),
`r2` (the `GetWindow` inside `AddToWindow`) and `w` (the `SetWindow`):
`true` is success, `false` a transport error. -/

inductive WindowEntry where
  | ts (t : Int)
  | malformed (s : String)
deriving DecidableEq, Repr

/-- `time.Parse(time.RFC3339, ·)` on a stored entry. -/
def entryTime : WindowEntry → Option Int
  | .ts t => some t
  | .malformed _ => none

abbrev RLStore := List (String × List WindowEntry × Int)

/-- Redis `GET` of a window key at instant `now`; `none` is
`cache.ErrNotFound` (key absent or past its TTL). -/
def rlGet (st : RLStore) (key : String) (now : Int) : Option (List WindowEntry) :=
  match st.find? (fun e => e.1 == key) with
  | some (_, es, exp) => if now < exp then some es else none
  | none => none

/-- Redis `SET` of a window with TTL: expiry instant `now + ttl`. -/
def rlSet (st : RLStore) (key : String) (es : List WindowEntry) (exp : Int) :
    RLStore :=
  (key, es, exp) :: st

/-- The per-entry test of `limiter.Allow`'s counting loop and of
`AddToWindow`'s pruning loop: the entry parses and is strictly after the
cutoff. -/
def validEntry (cutoff : Int) (e : WindowEntry) : Bool :=
  match entryTime e with
  | some t => decide (cutoff < t)
  | none => false

/-- The `validCount` computed by `limiter.Allow` (part_003 lines 371–378). -/
def countValid (es : List WindowEntry) (cutoff : Int) : Nat :=
  (es.filter (validEntry cutoff)).length

/-- `cache.RateLimitCache.AddToWindow` (part_015 lines 177–196): re-reads
the window (discarding any error: `timestamps, _ := rlc.GetWindow(...)`),
appends the new timestamp, prunes entries that fail to parse or fall
before `now - windowSize`, and writes the result back with TTL
`windowSize + 10` seconds.  The model evaluates the whole `Allow` call at
the single instant `now` (the Go code calls `time.Now()` again inside
`AddToWindow`, microseconds later). -/
def AddToWindow (st : RLStore) (key : String) (stamp : WindowEntry)
    (windowSize : Int) (now : Int) (r2 w : Bool) : Except Unit RLStore :=
  let old := if r2 then (rlGet st key now).getD [] else []
  let appended := old ++ [stamp]
  let filtered := appended.filter (validEntry (now - windowSize))
  if w then .ok (rlSet st key filtered (now + (windowSize + 10)))
  else .error ()

/-- `limiter.Allow` (part_003 lines 357–389): loads the window (a missing
key is an empty list, any other read error propagates), counts entries
strictly inside the trailing window, rejects without mutation when the
count has reached `maxRequests`, and otherwise appends `now`'s RFC3339
timestamp via `AddToWindow` (whose write error propagates) and admits. -/
def Allow (maxRequests windowSize : Int) (st : RLStore) (identifier : String)
    (now : Int) (r1 r2 w : Bool) : Except Unit Bool × RLStore :=
  let key := "ratelimit:" ++ identifier
  if r1 then
    let timestamps := (rlGet st key now).getD []
    let validCount := countValid timestamps (now - windowSize)
    if maxRequests ≤ (validCount : Int) then (.ok false, st)
    else
      match AddToWindow st key (.ts now) windowSize now r2 w with
      | .ok st' => (.ok true, st')
      | .error e => (.error e, st)
  else (.error (), st)

/-- Sequential calls to `Allow` for one identifier at the given instants,
with all Redis calls succeeding. -/
def allowRun (maxRequests windowSize : Int) (st : RLStore) (identifier : String) :
    List Int → List (Except Unit Bool) × RLStore
  | [] => ([], st)
  | t :: ts =>
    let r := Allow maxRequests windowSize st identifier t true true true
    let rest := allowRun maxRequests windowSize r.2 identifier ts
    (r.1 :: rest.1, rest.2)

/-- Outcome of the `middleware.RateLimit` Gin middleware
(`internal/middleware/rate_limit.go` lines 17–31). -/
inductive MWOutcome where
  | internalError
  | tooManyRequests
  | next
deriving DecidableEq, Repr

/-- `middleware.RateLimit`, as a function of the `Allow` result: an error
aborts with HTTP 500 ("rate limit check failed"), a denial aborts with
HTTP 429, an admission passes the request on. -/
def RateLimit : Except Unit Bool → MWOutcome
  | .error _ => .internalError
  | .ok false => .tooManyRequests
  | .ok true => .next

/-! ## Helper lemmas about the shortener model -/

theorem validateURL_ok_of_scheme (u : String) (p : GoURL)
    (hp : parseURL u = some p) (hs : p.scheme = "http" ∨ p.scheme = "https") :
    validateURL u = .ok () := by
  unfold validateURL
  rw [hp]
  rcases hs with h | h <;> simp [h]

theorem bloomCheck_append_self (l : List String) (extra : String → Bool)
    (code : String) : bloomCheck (l ++ [code]) extra code = true := by
  have h : code ∈ l ++ [code] := by simp
  simp [bloomCheck, List.elem_iff.mpr h]

theorem cacheGet_set_self (c : List (String × String × Int)) (k v : String)
    (exp now : Int) :
    cacheGet (cacheSet c k v exp) k now = if now < exp then some v else none := by
  simp [cacheGet, cacheSet]

theorem genAttempts_ok_exists (st : List URLRecord) (cands : Nat → String) :
    ∀ (n start : Nat), (∃ i, i < n ∧ storeExists st (cands (start + i)) = false) →
      ∃ code tr, genAttempts st cands start n = (Except.ok code, tr) := by
  intro n
  induction n with
  | zero => rintro start ⟨i, hi, -⟩; omega
  | succ n ih =>
    rintro start ⟨i, hi, hf⟩
    cases hb : storeExists st (cands start)
    case false =>
      exact ⟨cands start, [.storeRead (cands start)], by simp [genAttempts, hb]⟩
    case true =>
      have hnext : ∃ i, i < n ∧ storeExists st (cands (start + 1 + i)) = false := by
        cases i with
        | zero =>
          rw [Nat.add_zero] at hf
          rw [hf] at hb
          cases hb
        | succ j =>
          refine ⟨j, by omega, ?_⟩
          rw [show start + 1 + j = start + (j + 1) by omega]
          exact hf
      obtain ⟨code, tr, htr⟩ := ih (start + 1) hnext
      exact ⟨code, .storeRead (cands start) :: tr, by simp [genAttempts, hb, htr]⟩

theorem yearTTL_pos (now : Int) : now < now + yearTTL := by
  simp [yearTTL]

/-- C1: for every `original_url` that parses with scheme `http` or `https`,
`Shorten` with no alias and no expiration succeeds (provided the random
oracle yields, within the 10-attempt budget, a code not already in the
store), and immediately passing the returned `short_code` to
`GetOriginalURL` returns the same `original_url`. -/
theorem shorten_then_get_roundtrip
    (dom uid url : String) (s : SState) (now : Int)
    (cands : Nat → String) (extra : String → Bool) (p : GoURL)
    (hp : parseURL url = some p)
    (hs : p.scheme = "http" ∨ p.scheme = "https")
    (hfresh : ∃ i, i < 10 ∧ storeExists s.store (cands i) = false) :
    ∃ resp s' tr,
      Shorten dom s url none none now uid cands = (Except.ok resp, s', tr) ∧
      (GetOriginalURL s' extra resp.shortCode now).1 = Except.ok url := by
  have hval := validateURL_ok_of_scheme url p hp hs
  obtain ⟨code, trc, hgen⟩ :=
    genAttempts_ok_exists s.store cands 10 0 (by simpa using hfresh)
  refine ⟨⟨code, dom ++ "/" ++ code, none⟩,
    ⟨s.store ++ [⟨uid, code, url, none, now, now⟩],
     cacheSet s.cache (urlKey code) url (now + yearTTL), s.bloom ++ [code]⟩,
    trc ++ [.storeWrite code, .bloomAdd code, .cacheWrite (urlKey code) url yearTTL],
    ?_, ?_⟩
  · simp [Shorten, hval, generateUniqueShortCode, hgen]
  · simp [GetOriginalURL, bloomCheck_append_self, cacheGet_set_self,
      yearTTL_pos now]

/-- Witness for C1 at a concrete input. -/
theorem shorten_then_get_roundtrip_witness :
    ∃ resp s' tr,
      Shorten "http://sho.rt" ⟨[], [], []⟩ "https://example.com" none none 0 "id0"
          (fun _ => "abc123") = (Except.ok resp, s', tr) ∧
      (GetOriginalURL s' (fun _ => false) resp.shortCode 0).1 =
        Except.ok "https://example.com" :=
  shorten_then_get_roundtrip "http://sho.rt" "id0" "https://example.com"
    ⟨[], [], []⟩ 0 (fun _ => "abc123") (fun _ => false) ⟨"https", "example.com"⟩
    (by decide) (Or.inr rfl) ⟨0, by omega, by rfl⟩

/-- C2 (amended): for every input string that fails to parse or parses
with a scheme other than `http`/`https`, `Shorten` fails with one of the
two validation errors, leaves the state untouched and performs no effect
at all (in particular no write to the store, the cache or the filter).
The host is not part of the validation. -/
theorem shorten_invalid_url_no_writes
    (dom uid url : String) (s : SState) (expiresIn : Option Int)
    (alias? : Option String) (now : Int) (cands : Nat → String)
    (hbad : parseURL url = none ∨
      ∃ p, parseURL url = some p ∧ p.scheme ≠ "http" ∧ p.scheme ≠ "https") :
    ∃ e, (e = SErr.invalidURLFormat ∨ e = SErr.invalidURLScheme) ∧
      Shorten dom s url expiresIn alias? now uid cands = (Except.error e, s, []) := by
  rcases hbad with h | ⟨p, hp, h1, h2⟩
  · exact ⟨.invalidURLFormat, Or.inl rfl, by simp [Shorten, validateURL, h]⟩
  · exact ⟨.invalidURLScheme, Or.inr rfl, by simp [Shorten, validateURL, hp, h1, h2]⟩

/-- Witness for C2 (amended) at the unparsable input `"://a"` (Go:
"missing protocol scheme"). -/
theorem shorten_invalid_url_no_writes_witness :
    ∃ e, (e = SErr.invalidURLFormat ∨ e = SErr.invalidURLScheme) ∧
      Shorten "d" ⟨[], [], []⟩ "://a" none none 0 "u" (fun _ => "c") =
        (Except.error e, ⟨[], [], []⟩, []) :=
  shorten_invalid_url_no_writes "d" "u" "://a" ⟨[], [], []⟩ none none 0
    (fun _ => "c") (Or.inl (by decide))

/-- C2 counterexample: `"http://"` parses with scheme `http` and an empty
host, yet `Shorten` accepts it, persists a row, updates the filter and
writes the cache — refuting the claim that an input with no host fails
validation with no writes. -/
theorem shorten_empty_host_accepted :
    parseURL "http://" = some ⟨"http", ""⟩ ∧
    Shorten "d" ⟨[], [], []⟩ "http://" none (some "x") 0 "u" (fun _ => "c") =
      (Except.ok ⟨"x", "d/x", none⟩,
       ⟨[⟨"u", "x", "http://", none, 0, 0⟩], [("url:x", "http://", 31536000)], ["x"]⟩,
       [.storeRead "x", .storeWrite "x", .bloomAdd "x",
        .cacheWrite "url:x" "http://" 31536000]) := by
  constructor
  · decide
  · rfl

/-- C6: on the write path, a given `expires_in = e > 0` leads to a cache
write with TTL exactly the remaining time `e` to `expires_at`; `e ≤ 0`
skips the cache write while the row is still persisted and `Shorten` still
succeeds; no expiration uses the 1-year default TTL. -/
theorem shorten_cache_ttl_policy
    (dom uid url a : String) (s : SState) (now : Int) (cands : Nat → String)
    (p : GoURL) (hp : parseURL url = some p)
    (hs : p.scheme = "http" ∨ p.scheme = "https")
    (ha : a ≠ "") (hfree : storeExists s.store a = false) :
    (∀ e : Int, 0 < e →
      Shorten dom s url (some e) (some a) now uid cands =
        (Except.ok ⟨a, dom ++ "/" ++ a, some (now + e)⟩,
         ⟨s.store ++ [⟨uid, a, url, some (now + e), now, now⟩],
          cacheSet s.cache (urlKey a) url (now + e), s.bloom ++ [a]⟩,
         [.storeRead a, .storeWrite a, .bloomAdd a,
          .cacheWrite (urlKey a) url e])) ∧
    (∀ e : Int, e ≤ 0 →
      Shorten dom s url (some e) (some a) now uid cands =
        (Except.ok ⟨a, dom ++ "/" ++ a, some (now + e)⟩,
         ⟨s.store ++ [⟨uid, a, url, some (now + e), now, now⟩],
          s.cache, s.bloom ++ [a]⟩,
         [.storeRead a, .storeWrite a, .bloomAdd a])) ∧
    Shorten dom s url none (some a) now uid cands =
      (Except.ok ⟨a, dom ++ "/" ++ a, none⟩,
       ⟨s.store ++ [⟨uid, a, url, none, now, now⟩],
        cacheSet s.cache (urlKey a) url (now + yearTTL), s.bloom ++ [a]⟩,
       [.storeRead a, .storeWrite a, .bloomAdd a,
        .cacheWrite (urlKey a) url yearTTL]) := by
  have hval := validateURL_ok_of_scheme url p hp hs
  refine ⟨?_, ?_, ?_⟩
  · intro e he
    simp [Shorten, hval, ha, hfree, add_sub_cancel_left, he]
  · intro e he
    simp [Shorten, hval, ha, hfree, add_sub_cancel_left, show ¬ ((0:Int) < e) by omega]
  · simp [Shorten, hval, ha, hfree]

/-- Witness for C6 at concrete inputs (`e = 5`, `e = -1`, no expiration). -/
theorem shorten_cache_ttl_policy_witness :
    (Shorten "d" ⟨[], [], []⟩ "https://e.com" (some 5) (some "x") 0 "u"
        (fun _ => "c") =
      (Except.ok ⟨"x", "d/x", some 5⟩,
       ⟨[⟨"u", "x", "https://e.com", some 5, 0, 0⟩],
        [("url:x", "https://e.com", 5)], ["x"]⟩,
       [.storeRead "x", .storeWrite "x", .bloomAdd "x",
        .cacheWrite "url:x" "https://e.com" 5])) ∧
    (Shorten "d" ⟨[], [], []⟩ "https://e.com" (some (-1)) (some "x") 0 "u"
        (fun _ => "c") =
      (Except.ok ⟨"x", "d/x", some (-1)⟩,
       ⟨[⟨"u", "x", "https://e.com", some (-1), 0, 0⟩], [], ["x"]⟩,
       [.storeRead "x", .storeWrite "x", .bloomAdd "x"])) := by
  have h := shorten_cache_ttl_policy "d" "u" "https://e.com" "x" ⟨[], [], []⟩ 0
    (fun _ => "c") ⟨"https", "e.com"⟩ (by decide) (Or.inr rfl) (by decide) (by decide)
  exact ⟨by simpa using h.1 5 (by omega), by simpa using h.2.1 (-1) (by omega)⟩

theorem storeExists_append_self (st : List URLRecord) (row : URLRecord)
    (a : String) (h : row.shortCode = a) : storeExists (st ++ [row]) a = true := by
  simp [storeExists, h]

/-- C3: after a successful `Shorten` with alias `a` (no expiration), a
second `Shorten` with the same alias fails with `ErrAliasExists` — a
conflict error distinct from the internal errors, mapped by the handler to
HTTP 409 where internal errors map to 500 — inserts nothing (the state is
unchanged and the only effect is the existence check), and the original
code-to-URL mapping still resolves to the first URL. -/
theorem shorten_alias_conflict
    (dom uid1 uid2 url1 url2 a : String) (s0 : SState) (t0 t1 : Int)
    (cands1 cands2 : Nat → String) (extra : String → Bool) (e2 : Option Int)
    (p1 p2 : GoURL)
    (hp1 : parseURL url1 = some p1)
    (hs1 : p1.scheme = "http" ∨ p1.scheme = "https")
    (hp2 : parseURL url2 = some p2)
    (hs2 : p2.scheme = "http" ∨ p2.scheme = "https")
    (ha : a ≠ "") (hfree : storeExists s0.store a = false)
    (ht' : t1 < t0 + yearTTL) :
    ∃ s1 tr1,
      Shorten dom s0 url1 none (some a) t0 uid1 cands1 =
        (Except.ok ⟨a, dom ++ "/" ++ a, none⟩, s1, tr1) ∧
      Shorten dom s1 url2 e2 (some a) t1 uid2 cands2 =
        (Except.error SErr.aliasExists, s1, [.storeRead a]) ∧
      (GetOriginalURL s1 extra a t1).1 = Except.ok url1 ∧
      (∀ m, SErr.aliasExists ≠ SErr.internalErr m) ∧
      shortenStatus SErr.aliasExists = 409 ∧
      (∀ m, shortenStatus (SErr.internalErr m) = 500) := by
  have hval1 := validateURL_ok_of_scheme url1 p1 hp1 hs1
  have hval2 := validateURL_ok_of_scheme url2 p2 hp2 hs2
  refine ⟨⟨s0.store ++ [⟨uid1, a, url1, none, t0, t0⟩],
    cacheSet s0.cache (urlKey a) url1 (t0 + yearTTL), s0.bloom ++ [a]⟩,
    [.storeRead a, .storeWrite a, .bloomAdd a, .cacheWrite (urlKey a) url1 yearTTL],
    ?_, ?_, ?_, ?_, ?_, ?_⟩
  · simp [Shorten, hval1, ha, hfree]
  · have hTaken : storeExists (s0.store ++ [⟨uid1, a, url1, none, t0, t0⟩]) a = true :=
      storeExists_append_self _ _ _ rfl
    simp [Shorten, hval2, ha, hTaken]
  · simp [GetOriginalURL, bloomCheck_append_self, cacheGet_set_self, ht']
  · intro m
    exact fun h => SErr.noConfusion h
  · rfl
  · intro m
    rfl

/-- Witness for C3 at concrete inputs (`https://a.com` then `https://b.com`
with alias `"x"`). -/
theorem shorten_alias_conflict_witness :
    ∃ s1 tr1,
      Shorten "d" ⟨[], [], []⟩ "https://a.com" none (some "x") 0 "u1" (fun _ => "c") =
        (Except.ok ⟨"x", "d/x", none⟩, s1, tr1) ∧
      Shorten "d" s1 "https://b.com" none (some "x") 0 "u2" (fun _ => "c") =
        (Except.error SErr.aliasExists, s1, [.storeRead "x"]) ∧
      (GetOriginalURL s1 (fun _ => false) "x" 0).1 = Except.ok "https://a.com" ∧
      (∀ m, SErr.aliasExists ≠ SErr.internalErr m) ∧
      shortenStatus SErr.aliasExists = 409 ∧
      (∀ m, shortenStatus (SErr.internalErr m) = 500) :=
  shorten_alias_conflict "d" "u1" "u2" "https://a.com" "https://b.com" "x"
    ⟨[], [], []⟩ 0 0 (fun _ => "c") (fun _ => "c") (fun _ => false) none
    ⟨"https", "a.com"⟩ ⟨"https", "b.com"⟩ (by decide) (Or.inr rfl) (by decide)
    (Or.inr rfl) (by decide) (by decide) (by simp [yearTTL])

/-! ## Helpers for the allocation loop (C8) -/

/-- The store reads recorded by attempts `start, …, start + n - 1`. -/
def readEffects (cands : Nat → String) (start n : Nat) : List Effect :=
  (List.range n).map fun j => Effect.storeRead (cands (start + j))

theorem readEffects_succ (cands : Nat → String) (start n : Nat) :
    readEffects cands start (n + 1) =
      Effect.storeRead (cands start) :: readEffects cands (start + 1) n := by
  unfold readEffects
  rw [List.range_succ_eq_map, List.map_cons, List.map_map]
  simp only [Nat.add_zero]
  congr 1
  apply List.map_congr_left
  intro j _
  simp only [Function.comp_apply]
  congr 2
  omega

theorem genAttempts_all_taken (st : List URLRecord) (cands : Nat → String) :
    ∀ (n start : Nat), (∀ i, i < n → storeExists st (cands (start + i)) = true) →
      genAttempts st cands start n =
        (Except.error SErr.shortCodeGeneration, readEffects cands start n) := by
  intro n
  induction n with
  | zero => intro start _; simp [genAttempts, readEffects]
  | succ n ih =>
    intro start h
    have h0 : storeExists st (cands start) = true := by simpa using h 0 (by omega)
    have ih' := ih (start + 1) (fun i hi => by
      have hx := h (i + 1) (by omega)
      rwa [show start + (i + 1) = start + 1 + i from by omega] at hx)
    rw [readEffects_succ]
    simp [genAttempts, h0, ih']

theorem genAttempts_found_at (st : List URLRecord) (cands : Nat → String) :
    ∀ (i0 n start : Nat), i0 < n →
      storeExists st (cands (start + i0)) = false →
      (∀ j, j < i0 → storeExists st (cands (start + j)) = true) →
      genAttempts st cands start n =
        (Except.ok (cands (start + i0)), readEffects cands start (i0 + 1)) := by
  intro i0
  induction i0 with
  | zero =>
    intro n start hn h0 _
    match n, hn with
    | n + 1, _ =>
      rw [Nat.add_zero] at h0
      simp [genAttempts, h0, readEffects, show List.range 1 = [0] from rfl]
  | succ k ih =>
    intro n start hn hk hprev
    match n, hn with
    | n + 1, hn =>
      have h0 : storeExists st (cands start) = true := by simpa using hprev 0 (by omega)
      have ihx := ih n (start + 1) (by omega)
        (by rwa [show start + (k + 1) = start + 1 + k from by omega] at hk)
        (fun j hj => by
          have hx := hprev (j + 1) (by omega)
          rwa [show start + (j + 1) = start + 1 + j from by omega] at hx)
      rw [show start + (k + 1) = start + 1 + k from by omega, readEffects_succ]
      simp [genAttempts, h0, ihx]

/-- C8: with no alias, `Shorten` performs at most 10 attempts, each
generating a candidate and checking non-existence in the store (one store
read per attempt), and adopts the first candidate found not to exist; if
all 10 candidates exist, it fails with `ErrShortCodeGeneration`, leaves the
state unchanged, and performs exactly the 10 reads (no internal retry). -/
theorem shorten_bounded_allocation
    (dom uid url : String) (s : SState) (now : Int) (cands : Nat → String)
    (p : GoURL) (hp : parseURL url = some p)
    (hs : p.scheme = "http" ∨ p.scheme = "https") :
    (∀ i0, i0 < 10 → storeExists s.store (cands i0) = false →
      (∀ j, j < i0 → storeExists s.store (cands j) = true) →
      Shorten dom s url none none now uid cands =
        (Except.ok ⟨cands i0, dom ++ "/" ++ cands i0, none⟩,
         ⟨s.store ++ [⟨uid, cands i0, url, none, now, now⟩],
          cacheSet s.cache (urlKey (cands i0)) url (now + yearTTL),
          s.bloom ++ [cands i0]⟩,
         readEffects cands 0 (i0 + 1) ++
           [.storeWrite (cands i0), .bloomAdd (cands i0),
            .cacheWrite (urlKey (cands i0)) url yearTTL])) ∧
    ((∀ i, i < 10 → storeExists s.store (cands i) = true) →
      Shorten dom s url none none now uid cands =
        (Except.error SErr.shortCodeGeneration, s, readEffects cands 0 10)) := by
  have hval := validateURL_ok_of_scheme url p hp hs
  constructor
  · intro i0 h10 hf hprev
    have hg := genAttempts_found_at s.store cands i0 10 0 h10 (by simpa using hf)
      (fun j hj => by simpa using hprev j hj)
    simp only [Nat.zero_add] at hg
    simp [Shorten, hval, generateUniqueShortCode, hg]
  · intro hall
    have hg := genAttempts_all_taken s.store cands 10 0
      (fun i hi => by simpa using hall i hi)
    simp [Shorten, hval, generateUniqueShortCode, hg]

/-- Witness for C8: a store already holding the only candidate the oracle
ever produces exhausts all 10 attempts. -/
theorem shorten_bounded_allocation_witness :
    Shorten "d" ⟨[⟨"u0", "c0", "https://a.com", none, 0, 0⟩], [], []⟩
        "https://b.com" none none 0 "u" (fun _ => "c0") =
      (Except.error SErr.shortCodeGeneration,
       ⟨[⟨"u0", "c0", "https://a.com", none, 0, 0⟩], [], []⟩,
       readEffects (fun _ => "c0") 0 10) :=
  (shorten_bounded_allocation "d" "u" "https://b.com"
    ⟨[⟨"u0", "c0", "https://a.com", none, 0, 0⟩], [], []⟩ 0 (fun _ => "c0")
    ⟨"https", "b.com"⟩ (by decide) (Or.inr rfl)).2 (fun i _ => by decide)

/-! ## Helpers for the existence-filter claims (C5) -/

theorem bloomCheck_of_mem (l : List String) (extra : String → Bool) (code : String)
    (h : code ∈ l) : bloomCheck l extra code = true := by
  simp [bloomCheck]
  exact Or.inl h

theorem GetOriginalURL_bloom_eq (s : SState) (extra : String → Bool)
    (code : String) (now : Int) :
    (GetOriginalURL s extra code now).2.1.bloom = s.bloom := by
  simp only [GetOriginalURL]
  repeat' split
  all_goals rfl

theorem Shorten_bloom_mono (dom : String) (s : SState) (url : String)
    (e : Option Int) (a : Option String) (now : Int) (uid : String)
    (cands : Nat → String) (code : String) (h : code ∈ s.bloom) :
    code ∈ (Shorten dom s url e a now uid cands).2.1.bloom := by
  simp only [Shorten]
  repeat' split
  all_goals simp [h]

theorem runOp_bloom_mono (dom : String) (extra : String → Bool) (s : SState)
    (op : Op) (code : String) (h : code ∈ s.bloom) :
    code ∈ (runOp dom extra s op).bloom := by
  cases op with
  | shortenOp u e a n uid cands => exact Shorten_bloom_mono dom s u e a n uid cands code h
  | getOp c n =>
    show code ∈ (GetOriginalURL s extra c n).2.1.bloom
    rw [GetOriginalURL_bloom_eq]
    exact h

theorem runOps_bloom_mono (dom : String) (extra : String → Bool) :
    ∀ (ops : List Op) (s : SState) (code : String), code ∈ s.bloom →
      code ∈ (runOps dom extra s ops).bloom := by
  intro ops
  induction ops with
  | nil => intro s code h; exact h
  | cons op rest ih =>
    intro s code h
    exact ih _ _ (runOp_bloom_mono dom extra s op code h)

theorem Shorten_ok_bloom (dom uid url : String) (s s' : SState)
    (e : Option Int) (a : Option String) (now : Int) (cands : Nat → String)
    (resp : ShortenResponse) (tr : List Effect)
    (hok : Shorten dom s url e a now uid cands = (Except.ok resp, s', tr)) :
    s'.bloom = s.bloom ++ [resp.shortCode] := by
  simp only [Shorten] at hok
  repeat' split at hok
  all_goals simp_all [Prod.mk.injEq]
  all_goals (obtain ⟨h1, h2, h3⟩ := hok; subst h2; simp [← h1])

/-- C5: the existence filter has no false negatives — every code returned
by a successful `Shorten` is in the filter, the filter only grows across
any later operations, so the code keeps passing `Test` — and whenever
`Test` returns `false`, `GetOriginalURL` returns the not-found error with
the state untouched and no cache or store access (the only effect is the
filter probe). -/
theorem bloom_filter_gate
    (dom uid url : String) (s s' : SState) (extra : String → Bool)
    (expiresIn : Option Int) (alias? : Option String) (now : Int)
    (cands : Nat → String) (resp : ShortenResponse) (tr : List Effect)
    (hok : Shorten dom s url expiresIn alias? now uid cands =
      (Except.ok resp, s', tr)) :
    resp.shortCode ∈ s'.bloom ∧
    (∀ ops : List Op,
      bloomCheck (runOps dom extra s' ops).bloom extra resp.shortCode = true) ∧
    (∀ (code : String) (t : Int) (sAny : SState),
      bloomCheck sAny.bloom extra code = false →
      GetOriginalURL sAny extra code t =
        (Except.error SErr.urlNotFound, sAny, [.bloomCheck code])) := by
  have hmem : resp.shortCode ∈ s'.bloom := by
    rw [Shorten_ok_bloom dom uid url s s' expiresIn alias? now cands resp tr hok]
    simp
  refine ⟨hmem, ?_, ?_⟩
  · intro ops
    exact bloomCheck_of_mem _ extra _ (runOps_bloom_mono dom extra ops s' _ hmem)
  · intro code t sAny hfalse
    simp [GetOriginalURL, hfalse]

/-- Witness for C5 at a concrete `Shorten` and a concrete filter miss. -/
theorem bloom_filter_gate_witness :
    ("x" : String) ∈ (["x"] : List String) ∧
    bloomCheck (runOps "d" (fun _ => false)
      ⟨[⟨"u", "x", "https://e.com", none, 0, 0⟩],
       [("url:x", "https://e.com", 31536000)], ["x"]⟩
      [Op.getOp "zz" 1]).bloom (fun _ => false) "x" = true ∧
    GetOriginalURL ⟨[], [], []⟩ (fun _ => false) "zz" 5 =
      (Except.error SErr.urlNotFound, ⟨[], [], []⟩, [.bloomCheck "zz"]) := by
  have h := bloom_filter_gate "d" "u" "https://e.com" ⟨[], [], []⟩
    ⟨[⟨"u", "x", "https://e.com", none, 0, 0⟩],
     [("url:x", "https://e.com", 31536000)], ["x"]⟩ (fun _ => false)
    none (some "x") 0 (fun _ => "c") ⟨"x", "d/x", none⟩
    [.storeRead "x", .storeWrite "x", .bloomAdd "x",
     .cacheWrite "url:x" "https://e.com" 31536000] (by rfl)
  exact ⟨h.1, h.2.1 [Op.getOp "zz" 1], h.2.2 "zz" 5 ⟨[], [], []⟩ (by decide)⟩

/-! ## Helpers for the code generator (C9) -/

theorem sextetChar_mem (n : Nat) : sextetChar n ∈ b64Alphabet := by
  have hlt : n % 64 < b64Alphabet.length := by
    have : b64Alphabet.length = 64 := by rfl
    omega
  unfold sextetChar
  rw [List.getD_eq_getElem b64Alphabet 'A' hlt]
  exact List.getElem_mem hlt

theorem b64EncodeList_length : ∀ l : List Nat,
    (b64EncodeList l).length = 4 * ((l.length + 2) / 3)
  | [] => by simp [b64EncodeList]
  | [b1] => by simp [b64EncodeList]
  | [b1, b2] => by simp [b64EncodeList]
  | b1 :: b2 :: b3 :: rest => by
    have ih := b64EncodeList_length rest
    simp [b64EncodeList, ih]
    omega

theorem b64EncodeList_take_mem : ∀ (l : List Nat) (k : Nat),
    k ≤ (4 * l.length + 2) / 3 →
    ∀ c ∈ (b64EncodeList l).take k, c ∈ b64Alphabet
  | [], k, _ => by simp [b64EncodeList]
  | [b1], k, hk => by
    have hk2 : k ≤ 2 := by simpa using hk
    match k, hk2 with
    | 0, _ => simp
    | 1, _ =>
      intro c hc
      simp [b64EncodeList] at hc
      subst hc
      exact sextetChar_mem _
    | 2, _ =>
      intro c hc
      simp [b64EncodeList, List.take_succ_cons] at hc
      rcases hc with h | h <;> (subst h; exact sextetChar_mem _)
  | [b1, b2], k, hk => by
    have hk3 : k ≤ 3 := by simpa using hk
    match k, hk3 with
    | 0, _ => simp
    | 1, _ =>
      intro c hc
      simp [b64EncodeList] at hc
      subst hc
      exact sextetChar_mem _
    | 2, _ =>
      intro c hc
      simp [b64EncodeList, List.take_succ_cons] at hc
      rcases hc with h | h <;> (subst h; exact sextetChar_mem _)
    | 3, _ =>
      intro c hc
      simp [b64EncodeList, List.take_succ_cons] at hc
      rcases hc with h | h | h <;> (subst h; exact sextetChar_mem _)
  | b1 :: b2 :: b3 :: rest, k, hk => by
    match k, hk with
    | 0, _ => simp
    | 1, _ =>
      intro c hc
      simp [b64EncodeList] at hc
      subst hc
      exact sextetChar_mem _
    | 2, _ =>
      intro c hc
      simp [b64EncodeList, List.take_succ_cons] at hc
      rcases hc with h | h <;> (subst h; exact sextetChar_mem _)
    | 3, _ =>
      intro c hc
      simp [b64EncodeList, List.take_succ_cons] at hc
      rcases hc with h | h | h <;> (subst h; exact sextetChar_mem _)
    | (n + 4), h4 =>
      intro c hc
      simp only [b64EncodeList, List.take_succ_cons, List.mem_cons] at hc
      rcases hc with h | h | h | h | h
      · subst h; exact sextetChar_mem _
      · subst h; exact sextetChar_mem _
      · subst h; exact sextetChar_mem _
      · subst h; exact sextetChar_mem _
      · exact b64EncodeList_take_mem rest n (by simp at h4; omega) c h

/-- C9 (amended): for every length and every byte oracle, the generator
returns exactly `length` characters, each drawn from the fixed
case-sensitive base64 URL alphabet `A–Z a–z 0–9 - _` (which contains the
two non-alphanumeric characters `-` and `_`; the padding `=` can never
reach the kept prefix). -/
theorem generateShortCode_length_alphabet (length : Nat) (randomBytes : Nat → Nat) :
    (generateShortCode length randomBytes).length = length ∧
    ∀ c ∈ (generateShortCode length randomBytes).data, c ∈ b64Alphabet := by
  unfold generateShortCode
  have hlen : ((List.range (length * 3 / 4 + 1)).map
      (fun i => randomBytes i % 256)).length = length * 3 / 4 + 1 := by simp
  constructor
  · show (String.mk _).data.length = length
    rw [List.length_take, b64EncodeList_length, hlen]
    omega
  · intro c hc
    refine b64EncodeList_take_mem _ length ?_ c hc
    rw [hlen]
    omega

/-- C9 counterexample: with bytes `0xFB 0xEF 0xBE …` the generated code is
`"----"`, whose characters are not alphanumeric — refuting the claim that
every character is drawn from an alphanumeric alphabet. -/
theorem generateShortCode_not_alphanumeric :
    generateShortCode 4 (fun i => [251, 239, 190, 0].getD i 0) = "----" ∧
    ((generateShortCode 4 (fun i => [251, 239, 190, 0].getD i 0)).data.all
      Char.isAlphanum) = false := by
  constructor
  · rfl
  · rfl

/-! ## Helpers for the rate limiter (C4, C7, C10) -/

theorem rlGet_set_self (st : RLStore) (key : String) (es : List WindowEntry)
    (exp now : Int) :
    rlGet (rlSet st key es exp) key now = if now < exp then some es else none := by
  simp [rlGet, rlSet]

/-- `Allow` rejects without mutating state once the in-window count has
reached `maxRequests`. -/
theorem Allow_reject (k W : Int) (st : RLStore) (idf : String) (now : Int)
    (r2 w : Bool)
    (h : k ≤ (countValid ((rlGet st ("ratelimit:" ++ idf) now).getD []) (now - W) : Int)) :
    Allow k W st idf now true r2 w = (.ok false, st) := by
  simp [Allow, h]

/-- `Allow` under capacity (all Redis calls succeeding) prunes the stored
window, appends `now`, writes it back with TTL `W + 10` and admits. -/
theorem Allow_grant (k W : Int) (st : RLStore) (idf : String) (now : Int)
    (h : (countValid ((rlGet st ("ratelimit:" ++ idf) now).getD []) (now - W) : Int) < k) :
    Allow k W st idf now true true true =
      (.ok true,
       rlSet st ("ratelimit:" ++ idf)
         ((((rlGet st ("ratelimit:" ++ idf) now).getD []) ++ [WindowEntry.ts now]).filter
           (validEntry (now - W)))
         (now + (W + 10))) := by
  have h' : ¬ (k ≤ (countValid ((rlGet st ("ratelimit:" ++ idf) now).getD [])
      (now - W) : Int)) := not_le.mpr h
  simp [Allow, AddToWindow, h']

theorem filter_valid_append_ts (es : List WindowEntry) (now W : Int) (hW : 0 < W) :
    (es ++ [WindowEntry.ts now]).filter (validEntry (now - W)) =
      es.filter (validEntry (now - W)) ++ [WindowEntry.ts now] := by
  rw [List.filter_append]
  have : validEntry (now - W) (WindowEntry.ts now) = true := by
    simp [validEntry, entryTime]
    omega
  simp [this]

def isAdmit : Except Unit Bool → Bool
  | .ok true => true
  | _ => false

/-- Entries whose timestamp lies in `[a, b]`. -/
def inRange (a b : Int) (e : WindowEntry) : Bool :=
  match entryTime e with
  | some u => decide (a ≤ u ∧ u ≤ b)
  | none => false

def countIn (es : List WindowEntry) (a b : Int) : Nat :=
  (es.filter (inRange a b)).length

/-- Burst invariant: after `r` admitted calls at instants inside `[a, b]`,
the stored window for `key` is visible throughout `[a, b]` and holds at
least `r` entries timestamped inside `[a, b]`. -/
def windowInv (key : String) (a b : Int) (r : Nat) (st : RLStore) : Prop :=
  r = 0 ∨ ∃ es exp, st.find? (fun e => e.1 == key) = some (key, es, exp) ∧
    b < exp ∧ r ≤ countIn es a b

/-- Every parsable entry stored anywhere is timestamped at or before `b`. -/
def entriesBelow (st : RLStore) (b : Int) : Prop :=
  ∀ kv ∈ st, ∀ e ∈ kv.2.1, ∀ u, entryTime e = some u → u ≤ b

theorem inRange_implies_valid (a b t W : Int) (hta : a ≤ t) (htb : t ≤ b)
    (hW : b - a < W) (e : WindowEntry) (h : inRange a b e = true) :
    validEntry (t - W) e = true := by
  cases e with
  | ts u =>
    simp [inRange, entryTime] at h
    simp [validEntry, entryTime]
    omega
  | malformed m => simp [inRange, entryTime] at h

theorem countIn_filter_valid (es : List WindowEntry) (a b t W : Int)
    (hta : a ≤ t) (htb : t ≤ b) (hW : b - a < W) :
    countIn (es.filter (validEntry (t - W))) a b = countIn es a b := by
  unfold countIn
  rw [List.filter_filter]
  congr 1
  apply List.filter_congr
  intro e _
  cases hi : inRange a b e
  · simp [hi]
  · simp [hi, inRange_implies_valid a b t W hta htb hW e hi]

theorem countIn_le_countValid (es : List WindowEntry) (a b t W : Int)
    (hta : a ≤ t) (htb : t ≤ b) (hW : b - a < W) :
    countIn es a b ≤ countValid es (t - W) := by
  rw [← countIn_filter_valid es a b t W hta htb hW]
  unfold countIn countValid
  exact List.length_filter_le _ _

theorem windowInv_countIn (key : String) (a b : Int) (r : Nat) (st : RLStore)
    (t : Int) (hinv : windowInv key a b r st) (hta : a ≤ t) (htb : t ≤ b) :
    r ≤ countIn ((rlGet st key t).getD []) a b := by
  rcases hinv with rfl | ⟨es, exp, hf, hexp, hr⟩
  · exact Nat.zero_le _
  · have hvis : rlGet st key t = some es := by
      simp [rlGet, hf]
      omega
    rw [hvis]
    simpa using hr

theorem countIn_append_ts (es : List WindowEntry) (a b t : Int)
    (hta : a ≤ t) (htb : t ≤ b) :
    countIn (es ++ [WindowEntry.ts t]) a b = countIn es a b + 1 := by
  unfold countIn
  rw [List.filter_append]
  have : inRange a b (WindowEntry.ts t) = true := by
    simp [inRange, entryTime]
    omega
  simp [this]

theorem windowInv_step (key : String) (a b W : Int) (hW : b - a < W)
    (r : Nat) (st : RLStore) (t : Int) (hta : a ≤ t) (htb : t ≤ b)
    (hinv : windowInv key a b r st) :
    windowInv key a b (r + 1)
      (rlSet st key ((((rlGet st key t).getD []) ++ [WindowEntry.ts t]).filter
        (validEntry (t - W))) (t + (W + 10))) := by
  have hab : a ≤ b := le_trans hta htb
  have hWpos : 0 < W := by omega
  refine Or.inr ⟨(((rlGet st key t).getD []) ++ [WindowEntry.ts t]).filter
    (validEntry (t - W)), t + (W + 10), ?_, by omega, ?_⟩
  · simp [rlSet]
  · rw [filter_valid_append_ts _ t W hWpos,
      countIn_append_ts _ a b t hta htb,
      countIn_filter_valid _ a b t W hta htb hW]
    have := windowInv_countIn key a b r st t hinv hta htb
    omega

theorem allowRun_length (k W : Int) (idf : String) :
    ∀ (times : List Int) (st : RLStore),
      (allowRun k W st idf times).1.length = times.length := by
  intro times
  induction times with
  | nil => intro st; rfl
  | cons t ts ih => intro st; simp [allowRun, ih]

theorem allowRun_results_ok (k W : Int) (idf : String) :
    ∀ (times : List Int) (st : RLStore) (x : Except Unit Bool),
      x ∈ (allowRun k W st idf times).1 →
      x = Except.ok true ∨ x = Except.ok false := by
  intro times
  induction times with
  | nil => intro st x hx; simp [allowRun] at hx
  | cons t ts ih =>
    intro st x hx
    simp only [allowRun, List.mem_cons] at hx
    rcases hx with rfl | hx
    · by_cases hc : k ≤ (countValid ((rlGet st ("ratelimit:" ++ idf) t).getD [])
          (t - W) : Int)
      · simp [Allow_reject k W st idf t true true hc]
      · simp [Allow_grant k W st idf t (not_le.mp hc)]
    · exact ih _ x hx

theorem allowRun_admits_le (k W : Int) (idf : String) (a b : Int) (hW : b - a < W) :
    ∀ (times : List Int) (st : RLStore) (r : Nat),
      (∀ t ∈ times, a ≤ t ∧ t ≤ b) →
      windowInv ("ratelimit:" ++ idf) a b r st →
      (r : Int) ≤ k →
      (r : Int) + ((allowRun k W st idf times).1.countP isAdmit : Int) ≤ k := by
  intro times
  induction times with
  | nil =>
    intro st r _ _ hrk
    simpa [allowRun] using hrk
  | cons t ts ih =>
    intro st r htimes hinv hrk
    obtain ⟨hta, htb⟩ := htimes t (by simp)
    by_cases hc : k ≤ (countValid ((rlGet st ("ratelimit:" ++ idf) t).getD [])
        (t - W) : Int)
    · have heq := Allow_reject k W st idf t true true hc
      have ihx := ih st r (fun u hu => htimes u (by simp [hu])) hinv hrk
      simpa [allowRun, heq, isAdmit, List.countP_cons] using ihx
    · have hcount := not_le.mp hc
      have hrcount : r ≤ countIn ((rlGet st ("ratelimit:" ++ idf) t).getD []) a b :=
        windowInv_countIn _ a b r st t hinv hta htb
      have hcv : countIn ((rlGet st ("ratelimit:" ++ idf) t).getD []) a b ≤
          countValid ((rlGet st ("ratelimit:" ++ idf) t).getD []) (t - W) :=
        countIn_le_countValid _ a b t W hta htb hW
      have hr_lt : (r : Int) < k := by
        have h1 : (r : Int) ≤ (countValid ((rlGet st ("ratelimit:" ++ idf) t).getD [])
            (t - W) : Int) := by exact_mod_cast le_trans hrcount hcv
        omega
      have heq := Allow_grant k W st idf t hcount
      have hinv' := windowInv_step ("ratelimit:" ++ idf) a b W hW r st t hta htb hinv
      have ihx := ih _ (r + 1) (fun u hu => htimes u (by simp [hu])) hinv' (by omega)
      have hfinal : ((r : Int) + 1) +
          (((allowRun k W (rlSet st ("ratelimit:" ++ idf)
            ((((rlGet st ("ratelimit:" ++ idf) t).getD []) ++ [WindowEntry.ts t]).filter
              (validEntry (t - W))) (t + (W + 10))) idf ts).1.countP isAdmit : Int)) ≤ k := by
        exact_mod_cast ihx
      simp only [allowRun, heq, List.countP_cons, isAdmit]
      push_cast
      omega

theorem countValid_zero_of_below (es : List WindowEntry) (cutoff : Int)
    (h : ∀ e ∈ es, ∀ u, entryTime e = some u → u ≤ cutoff) :
    countValid es cutoff = 0 := by
  have hnil : es.filter (validEntry cutoff) = [] := by
    rw [List.filter_eq_nil_iff]
    intro e he
    cases e with
    | ts u =>
      have := h _ he u rfl
      simp [validEntry, entryTime]
      omega
    | malformed m => simp [validEntry, entryTime]
  simp [countValid, hnil]

theorem rlGet_entries_mem (st : RLStore) (key : String) (now : Int)
    (es : List WindowEntry) (h : rlGet st key now = some es) :
    ∃ kv ∈ st, kv.2.1 = es := by
  unfold rlGet at h
  cases hf : st.find? (fun e => e.1 == key) with
  | none => rw [hf] at h; cases h
  | some kv =>
    obtain ⟨k', es', exp⟩ := kv
    rw [hf] at h
    simp only [] at h
    by_cases hlt : now < exp
    · rw [if_pos hlt] at h
      cases h
      exact ⟨(k', es, exp), List.mem_of_find?_eq_some hf, rfl⟩
    · rw [if_neg hlt] at h
      cases h

theorem entriesBelow_rlGet (st : RLStore) (b : Int) (key : String) (t : Int)
    (h : entriesBelow st b) :
    ∀ e ∈ (rlGet st key t).getD [], ∀ u, entryTime e = some u → u ≤ b := by
  intro e he u hu
  cases hg : rlGet st key t with
  | none => rw [hg] at he; simp at he
  | some es =>
    rw [hg] at he
    simp only [Option.getD_some] at he
    obtain ⟨kv, hkv, hes⟩ := rlGet_entries_mem st key t es hg
    exact h kv hkv e (by rw [hes]; exact he) u hu

theorem allowRun_entriesBelow (k W : Int) (idf : String) (b : Int) :
    ∀ (times : List Int) (st : RLStore),
      entriesBelow st b → (∀ t ∈ times, t ≤ b) →
      entriesBelow (allowRun k W st idf times).2 b := by
  intro times
  induction times with
  | nil => intro st hbelow _; exact hbelow
  | cons t ts ih =>
    intro st hbelow htimes
    by_cases hc : k ≤ (countValid ((rlGet st ("ratelimit:" ++ idf) t).getD [])
        (t - W) : Int)
    · have heq := Allow_reject k W st idf t true true hc
      simp only [allowRun, heq]
      exact ih st hbelow (fun u hu => htimes u (by simp [hu]))
    · have heq := Allow_grant k W st idf t (not_le.mp hc)
      simp only [allowRun, heq]
      refine ih _ ?_ (fun u hu => htimes u (by simp [hu]))
      intro kv hkv e he u hu
      rcases List.mem_cons.mp hkv with rfl | hkv'
      · have hmem := (List.mem_filter.mp he).1
        rcases List.mem_append.mp hmem with hold | hts
        · exact entriesBelow_rlGet st b _ t hbelow e hold u hu
        · simp only [List.mem_singleton] at hts
          subst hts
          simp only [entryTime] at hu
          cases hu
          exact htimes t (by simp)
      · exact hbelow kv hkv' e he u hu

/-- C4: `allow` loads the stored timestamp list (missing key ≡ empty),
counts entries strictly after `now - windowSize`, rejects without mutating
the stored state when the count has reached `maxRequests`, and otherwise
appends `now`'s timestamp (to the pruned list) and writes it back with TTL
`windowSize + 10` seconds and admits; consequently a burst of `k + 1`
sequential calls within one window returns `false` at least once, and once
the window has elapsed past every stored timestamp a subsequent call
returns `true` again. -/
theorem allow_sliding_window (k W : Int) (idf : String) (hW : 0 < W) (hk : 1 ≤ k) :
    (∀ (st : RLStore) (now : Int),
      rlGet st ("ratelimit:" ++ idf) now = none →
      Allow k W st idf now true true true =
        (Except.ok true,
         rlSet st ("ratelimit:" ++ idf) [WindowEntry.ts now] (now + (W + 10)))) ∧
    (∀ (st : RLStore) (now : Int),
      k ≤ (countValid ((rlGet st ("ratelimit:" ++ idf) now).getD []) (now - W) : Int) →
      Allow k W st idf now true true true = (Except.ok false, st)) ∧
    (∀ (st : RLStore) (now : Int),
      (countValid ((rlGet st ("ratelimit:" ++ idf) now).getD []) (now - W) : Int) < k →
      Allow k W st idf now true true true =
        (Except.ok true,
         rlSet st ("ratelimit:" ++ idf)
           ((((rlGet st ("ratelimit:" ++ idf) now).getD []).filter (validEntry (now - W)))
             ++ [WindowEntry.ts now])
           (now + (W + 10)))) ∧
    (∀ (a b : Int) (st : RLStore) (times : List Int),
      b - a < W →
      (∀ t ∈ times, a ≤ t ∧ t ≤ b) →
      (times.length : Int) = k + 1 →
      Except.ok false ∈ (allowRun k W st idf times).1) ∧
    (∀ (b : Int) (st : RLStore) (times : List Int),
      entriesBelow st b → (∀ t ∈ times, t ≤ b) →
      entriesBelow (allowRun k W st idf times).2 b) ∧
    (∀ (st : RLStore) (b t : Int),
      entriesBelow st b →
      b + W ≤ t →
      (Allow k W st idf t true true true).1 = Except.ok true) := by
  refine ⟨?_, ?_, ?_, ?_, ?_, ?_⟩
  · intro st now hnone
    have hc : (countValid ((rlGet st ("ratelimit:" ++ idf) now).getD [])
        (now - W) : Int) < k := by
      rw [hnone]
      simp [countValid]
      omega
    have heq := Allow_grant k W st idf now hc
    rw [hnone] at heq
    simpa [validEntry, entryTime, show now - W < now from by omega] using heq
  · intro st now h
    exact Allow_reject k W st idf now true true h
  · intro st now h
    have heq := Allow_grant k W st idf now h
    rwa [filter_valid_append_ts _ now W hW] at heq
  · intro a b st times hab htimes hlen
    have hbound := allowRun_admits_le k W idf a b hab times st 0 htimes
      (Or.inl rfl) (by omega)
    by_contra hno
    have hall : ∀ x ∈ (allowRun k W st idf times).1, isAdmit x = true := by
      intro x hx
      rcases allowRun_results_ok k W idf times st x hx with rfl | rfl
      · rfl
      · exact absurd hx hno
    have hcp : (allowRun k W st idf times).1.countP isAdmit =
        (allowRun k W st idf times).1.length :=
      List.countP_eq_length.mpr hall
    rw [allowRun_length] at hcp
    rw [hcp] at hbound
    omega
  · intro b st times hbelow htimes
    exact allowRun_entriesBelow k W idf b times st hbelow htimes
  · intro st b t hbelow hbt
    have hc : (countValid ((rlGet st ("ratelimit:" ++ idf) t).getD [])
        (t - W) : Int) < k := by
      have hz := countValid_zero_of_below ((rlGet st ("ratelimit:" ++ idf) t).getD [])
        (t - W) (fun e he u hu => by
          have := entriesBelow_rlGet st b _ t hbelow e he u hu
          omega)
      rw [hz]
      omega
    rw [Allow_grant k W st idf t hc]

/-- Witness for C4 at `k = 1`, `W = 5`: two calls at instant 0 give one
admit and one reject, and a later call at instant 6 admits again. -/
theorem allow_sliding_window_witness :
    Except.ok false ∈ (allowRun 1 5 [] "x" [0, 0]).1 ∧
    (Allow 1 5 (allowRun 1 5 [] "x" [0, 0]).2 "x" 6 true true true).1 =
      Except.ok true := by
  have h := allow_sliding_window 1 5 "x" (by omega) (by omega)
  refine ⟨h.2.2.2.1 0 0 [] [0, 0] (by omega)
    (by intro t ht; simp at ht; omega) (by simp), ?_⟩
  refine h.2.2.2.2.2 (allowRun 1 5 [] "x" [0, 0]).2 0 6 ?_ (by omega)
  refine h.2.2.2.2.1 0 [] [0, 0] ?_ (by simp)
  intro kv hkv
  simp at hkv

/-- C7 (amended): a transport error on the initial window load, or on the
write-back, propagates as an error from `allow` (the result is an error,
neither an admit nor a deny, and the state is unchanged) and the
middleware surfaces an error as HTTP 500 rather than admitting or denying;
but a read error during the append step inside `AddToWindow` is swallowed
(the window is re-read as empty, overwritten, and the request admitted). -/
theorem allow_error_propagation (k W : Int) (idf : String) :
    (∀ (st : RLStore) (now : Int) (r2 w : Bool),
      Allow k W st idf now false r2 w = (Except.error (), st)) ∧
    (∀ (st : RLStore) (now : Int) (r2 : Bool),
      (countValid ((rlGet st ("ratelimit:" ++ idf) now).getD []) (now - W) : Int) < k →
      Allow k W st idf now true r2 false = (Except.error (), st)) ∧
    RateLimit (Except.error ()) = MWOutcome.internalError ∧
    RateLimit (Except.ok true) = MWOutcome.next ∧
    RateLimit (Except.ok false) = MWOutcome.tooManyRequests := by
  refine ⟨?_, ?_, rfl, rfl, rfl⟩
  · intro st now r2 w
    simp [Allow]
  · intro st now r2 h
    have h' : ¬ (k ≤ (countValid ((rlGet st ("ratelimit:" ++ idf) now).getD [])
        (now - W) : Int)) := not_le.mpr h
    simp [Allow, AddToWindow, h']

/-- Witness for C7 (amended) at concrete inputs. -/
theorem allow_error_propagation_witness :
    Allow 1 5 [] "x" 0 false true true = (Except.error (), []) ∧
    Allow 1 5 [] "x" 0 true true false = (Except.error (), []) ∧
    RateLimit (Except.error ()) = MWOutcome.internalError := by
  have h := allow_error_propagation 1 5 "x"
  exact ⟨h.1 [] 0 true true, h.2.1 [] 0 true (by decide), h.2.2.1⟩

/-- C7 counterexample: with the initial load succeeding and the re-read
inside `AddToWindow` failing, `allow` swallows that read error — it admits
(no error propagates) and the previously stored timestamp is silently
dropped from the window it writes back. -/
theorem allow_swallowed_read_error :
    Allow 2 5 [("ratelimit:x", [WindowEntry.ts 0], 100)] "x" 1 true false true =
      (Except.ok true,
       [("ratelimit:x", [WindowEntry.ts 1], 16),
        ("ratelimit:x", [WindowEntry.ts 0], 100)]) ∧
    RateLimit (Allow 2 5 [("ratelimit:x", [WindowEntry.ts 0], 100)] "x" 1
      true false true).1 = MWOutcome.next := by
  constructor <;> rfl

/-- The admit/reject decision of `Allow` (all Redis calls succeeding)
depends only on the in-window count of the loaded list. -/
theorem Allow_decision (k W : Int) (st : RLStore) (idf : String) (now : Int) :
    (Allow k W st idf now true true true).1 =
      if k ≤ (countValid ((rlGet st ("ratelimit:" ++ idf) now).getD []) (now - W) : Int)
      then Except.ok false else Except.ok true := by
  by_cases hc : k ≤ (countValid ((rlGet st ("ratelimit:" ++ idf) now).getD [])
      (now - W) : Int)
  · simp [Allow_reject k W st idf now true true hc, hc]
  · simp [Allow_grant k W st idf now (not_le.mp hc), hc]

theorem countValid_all_malformed (es : List WindowEntry) (cutoff : Int)
    (h : ∀ e ∈ es, ∃ m, e = WindowEntry.malformed m) :
    countValid es cutoff = 0 := by
  apply countValid_zero_of_below
  intro e he u hu
  obtain ⟨m, rfl⟩ := h e he
  simp [entryTime] at hu

/-- C10: entries that do not parse as RFC3339 timestamps are never counted
by `allow`, the admit/reject decision on a window of only unparsable
entries equals the decision on the empty window, and the window written
back by an admitted request contains only parsable entries (the malformed
ones have been pruned). -/
theorem malformed_entries_inert (k W : Int) (idf : String) :
    (∀ (es1 es2 : List WindowEntry) (m : String) (cutoff : Int),
      countValid (es1 ++ WindowEntry.malformed m :: es2) cutoff =
        countValid (es1 ++ es2) cutoff) ∧
    (∀ (st : RLStore) (now exp : Int) (es : List WindowEntry),
      (∀ e ∈ es, ∃ m, e = WindowEntry.malformed m) →
      (Allow k W (rlSet st ("ratelimit:" ++ idf) es exp) idf now true true true).1 =
      (Allow k W (rlSet st ("ratelimit:" ++ idf) [] exp) idf now true true true).1) ∧
    (∀ (st : RLStore) (now : Int),
      (countValid ((rlGet st ("ratelimit:" ++ idf) now).getD []) (now - W) : Int) < k →
      ∃ es', Allow k W st idf now true true true =
        (Except.ok true, rlSet st ("ratelimit:" ++ idf) es' (now + (W + 10))) ∧
        ∀ e ∈ es', ∃ u, entryTime e = some u) := by
  refine ⟨?_, ?_, ?_⟩
  · intro es1 es2 m cutoff
    unfold countValid
    rw [List.filter_append, List.filter_append, List.filter_cons]
    simp [validEntry, entryTime]
  · intro st now exp es hmal
    rw [Allow_decision, Allow_decision]
    by_cases hlt : now < exp
    · simp [rlGet_set_self, hlt, countValid_all_malformed es _ hmal,
        show countValid [] (now - W) = 0 from rfl]
    · simp [rlGet_set_self, hlt]
  · intro st now h
    refine ⟨_, Allow_grant k W st idf now h, ?_⟩
    intro e he
    have hv := (List.mem_filter.mp he).2
    cases e with
    | ts u => exact ⟨u, rfl⟩
    | malformed m => simp [validEntry, entryTime] at hv

/-- Witness for C10 at concrete inputs: a window holding only the
unparsable entry `"zz"`. -/
theorem malformed_entries_inert_witness :
    countValid ([] ++ WindowEntry.malformed "zz" :: []) 0 = countValid ([] ++ []) 0 ∧
    (Allow 1 5 (rlSet [] "ratelimit:x" [WindowEntry.malformed "zz"] 100) "x" 0
      true true true).1 =
    (Allow 1 5 (rlSet [] "ratelimit:x" [] 100) "x" 0 true true true).1 ∧
    (∃ es', Allow 1 5 [] "x" 0 true true true =
        (Except.ok true, rlSet [] "ratelimit:x" es' (0 + (5 + 10))) ∧
        ∀ e ∈ es', ∃ u, entryTime e = some u) := by
  have h := malformed_entries_inert 1 5 "x"
  exact ⟨h.1 [] [] "zz" 0,
    h.2.1 [] 0 100 [WindowEntry.malformed "zz"] (by simp),
    h.2.2 [] 0 (by decide)⟩

end UrlShortener
